import Mathlib

/-!
Verification of the template-processing core of the folder-maker VS Code
extension (variable substitution, path validation, operation planning and
conflict-resolution orchestration).

JavaScript strings are modelled as `List Char` (one entry per code point).
Case conversion (`String.prototype.toLowerCase` / `toUpperCase`) is modelled
on the ASCII letters, which is the range the repository's case utilities and
regexes operate on; paths are modelled POSIX-style (`path.sep = '/'`), the
platform the normalization and resolution functions are exercised on.
-/

namespace FolderMaker

/-- A JavaScript string, one list entry per code point. -/
abbrev Str := List Char

/-- Code points matched by the JavaScript regex class `\s` (and removed by
`String.prototype.trim`). -/
def isJsSpace (c : Char) : Bool :=
  let n := c.toNat
  n = 9 || n = 10 || n = 11 || n = 12 || n = 13 || n = 32 || n = 160 ||
  n = 5760 || (8192 ≤ n && n ≤ 8202) || n = 8232 || n = 8233 || n = 8239 ||
  n = 8287 || n = 12288 || n = 65279

/-- The regex class `[a-z]`. -/
def isLowerAscii (c : Char) : Bool := 97 ≤ c.toNat && c.toNat ≤ 122

/-- The regex class `[A-Z]`. -/
def isUpperAscii (c : Char) : Bool := 65 ≤ c.toNat && c.toNat ≤ 90

/-- The regex class `[0-9]`. -/
def isDigitAscii (c : Char) : Bool := 48 ≤ c.toNat && c.toNat ≤ 57

theorem toNat_ofNat_valid (n : Nat) (h : n < 0xd800) : (Char.ofNat n).toNat = n := by
  unfold Char.ofNat
  rw [dif_pos (Or.inl (by exact_mod_cast h))]
  simp [Char.ofNatAux, Char.toNat, UInt32.toNat, BitVec.toNat_ofNatLt]

theorem char_toNat_lt (c : Char) : c.toNat < 1114112 := by
  have h := c.valid
  rcases h with h | h
  · exact Nat.lt_trans h (by norm_num)
  · exact h.2

theorem toNat_toLower (c : Char) :
    (Char.toLower c).toNat =
      if 65 ≤ c.toNat ∧ c.toNat ≤ 90 then c.toNat + 32 else c.toNat := by
  simp only [Char.toLower]
  by_cases h : 65 ≤ c.toNat ∧ c.toNat ≤ 90
  · rw [if_pos (show c.toNat ≥ 65 ∧ c.toNat ≤ 90 from h), if_pos h]
    exact toNat_ofNat_valid _ (by omega)
  · rw [if_neg (show ¬(c.toNat ≥ 65 ∧ c.toNat ≤ 90) from h), if_neg h]

theorem toNat_toUpper (c : Char) :
    (Char.toUpper c).toNat =
      if 97 ≤ c.toNat ∧ c.toNat ≤ 122 then c.toNat - 32 else c.toNat := by
  simp only [Char.toUpper]
  by_cases h : 97 ≤ c.toNat ∧ c.toNat ≤ 122
  · rw [if_pos (show c.toNat ≥ 97 ∧ c.toNat ≤ 122 from h), if_pos h]
    exact toNat_ofNat_valid _ (by omega)
  · rw [if_neg (show ¬(c.toNat ≥ 97 ∧ c.toNat ≤ 122) from h), if_neg h]

theorem char_eq_iff_toNat (c d : Char) : c = d ↔ c.toNat = d.toNat := by
  constructor
  · intro h; rw [h]
  · intro h
    apply Char.ext
    exact UInt32.toNat.inj h

theorem toLower_toLower (c : Char) :
    Char.toLower (Char.toLower c) = Char.toLower c := by
  rw [char_eq_iff_toNat]
  simp only [toNat_toLower]
  split_ifs <;> omega

theorem toUpper_toUpper (c : Char) :
    Char.toUpper (Char.toUpper c) = Char.toUpper c := by
  rw [char_eq_iff_toNat]
  simp only [toNat_toUpper]
  split_ifs <;> omega

theorem isUpperAscii_toLower (c : Char) : isUpperAscii (Char.toLower c) = false := by
  simp only [isUpperAscii, toNat_toLower]
  split_ifs <;>
    (simp only [Bool.and_eq_false_iff, decide_eq_false_iff_not]; omega)

/-! ### Case Transformer (`src/utils/case.ts`)

`toKebab` is the composition of three global regex replacements and a
lowercasing; `toCamel` and `toPascal` are built from the separator-collapsing
replacement `/[-_\s]+(.)?/g` plus a first-character case adjustment. -/

/-- The regex class `[_\s]` used by `toKebab`'s separator collapse. -/
def isKebabSep (c : Char) : Bool := c.toNat = 95 || isJsSpace c

/-- The regex class `[-_\s]` used by `toCamel` / `toPascal`. -/
def isCamelSep (c : Char) : Bool := c.toNat = 45 || c.toNat = 95 || isJsSpace c

/-- Global replacement `/([a-z0-9])([A-Z])/g → "$1-$2"`: insert a hyphen
between a lower-case letter or digit and a following upper-case letter,
resuming the scan after each match. -/
def kebab1 : Str → Str
  | a :: b :: r =>
    if (isLowerAscii a || isDigitAscii a) && isUpperAscii b then
      a :: '-' :: b :: kebab1 r
    else
      a :: kebab1 (b :: r)
  | l => l

/-- Global replacement `/([A-Z]+)([A-Z][a-z])/g → "$1-$2"`: split an
upper-case run from a following capitalized word ("XMLHttp" → "XML-Http"). -/
def kebab2 : Str → Str
  | a :: b :: c :: r =>
    if isUpperAscii a && isUpperAscii b && isUpperAscii c then
      a :: kebab2 (b :: c :: r)
    else if isUpperAscii a && isUpperAscii b && isLowerAscii c then
      a :: '-' :: b :: c :: kebab2 r
    else
      a :: kebab2 (b :: c :: r)
  | l => l

/-- Global replacement `/[_\s]+/g → "-"`: collapse each run of underscores
and whitespace into a single hyphen. -/
def kebabSeps : Str → Str
  | [] => []
  | [c] => if isKebabSep c then ['-'] else [c]
  | c :: d :: r =>
    if isKebabSep c then
      if isKebabSep d then kebabSeps (d :: r) else '-' :: kebabSeps (d :: r)
    else
      c :: kebabSeps (d :: r)

/-- `toKebab` from `src/utils/case.ts`. -/
def toKebab (input : Str) : Str :=
  (kebabSeps (kebab2 (kebab1 input))).map Char.toLower

/-- Global replacement `/[-_\s]+(.)?/g`: delete each run of separators and
upper-case the character following it (a trailing run is deleted outright). -/
def camelRepl : Str → Str
  | [] => []
  | [c] => if isCamelSep c then [] else [c]
  | c :: d :: r =>
    if isCamelSep c then
      if isCamelSep d then camelRepl (d :: r) else Char.toUpper d :: camelRepl r
    else
      c :: camelRepl (d :: r)

/-- Replacement `/^(.)/ → lowercase`: lower-case the first character. -/
def lowerFirst : Str → Str
  | [] => []
  | c :: r => Char.toLower c :: r

/-- Replacement `/^(.)/ → uppercase`: upper-case the first character. -/
def upperFirst : Str → Str
  | [] => []
  | c :: r => Char.toUpper c :: r

/-- `toCamel` from `src/utils/case.ts`. -/
def toCamel (input : Str) : Str :=
  lowerFirst (camelRepl input)

/-- Drop the trailing run of characters satisfying `p`. -/
def dropTrailing (p : Char → Bool) (s : Str) : Str :=
  (s.reverse.dropWhile p).reverse

/-- Strip `/^[-_\s]+|[-_\s]+$/g`: leading and trailing separator runs. -/
def stripEdgeSeps (s : Str) : Str :=
  dropTrailing isCamelSep (s.dropWhile isCamelSep)

/-- `toPascal` from `src/utils/case.ts` (`trimmed` inlined). -/
def toPascal (input : Str) : Str :=
  if input = [] then []
  else if stripEdgeSeps input = [] then []
  else upperFirst (camelRepl (stripEdgeSeps input))

theorem isKebabSep_toLower (c : Char) (h : isKebabSep c = false) :
    isKebabSep (Char.toLower c) = false := by
  simp only [isKebabSep, isJsSpace, toNat_toLower] at h ⊢
  split_ifs <;>
    (simp only [Bool.or_eq_false_iff, Bool.and_eq_false_iff,
       decide_eq_false_iff_not] at h ⊢ <;> omega)

theorem isCamelSep_toLower (c : Char) (h : isCamelSep c = false) :
    isCamelSep (Char.toLower c) = false := by
  simp only [isCamelSep, isJsSpace, toNat_toLower] at h ⊢
  split_ifs <;>
    (simp only [Bool.or_eq_false_iff, Bool.and_eq_false_iff,
       decide_eq_false_iff_not] at h ⊢ <;> omega)

theorem isCamelSep_toUpper (c : Char) (h : isCamelSep c = false) :
    isCamelSep (Char.toUpper c) = false := by
  simp only [isCamelSep, isJsSpace, toNat_toUpper] at h ⊢
  split_ifs with hr <;>
    (simp only [Bool.or_eq_false_iff, Bool.and_eq_false_iff,
       decide_eq_false_iff_not] at h ⊢ <;> omega)

theorem kebab1_id (l : Str) (h : ∀ c ∈ l, isUpperAscii c = false) :
    kebab1 l = l := by
  induction l using kebab1.induct with
  | case1 a b r hcond ih =>
    exfalso
    have hb := h b (by simp)
    simp only [Bool.and_eq_true] at hcond
    rw [hb] at hcond
    simp at hcond
  | case2 a b r hcond ih =>
    rw [kebab1, if_neg hcond, ih (fun c hc => h c (List.mem_cons_of_mem a hc))]
  | case3 l hl =>
    rcases l with _ | ⟨a, _ | ⟨b, r⟩⟩
    · rfl
    · rfl
    · exact (hl a b r rfl).elim

theorem kebab2_id (l : Str) (h : ∀ c ∈ l, isUpperAscii c = false) :
    kebab2 l = l := by
  induction l using kebab2.induct with
  | case1 a b c r hcond ih =>
    exfalso
    have hb := h b (by simp)
    simp only [Bool.and_eq_true] at hcond
    rw [hb] at hcond
    simp at hcond
  | case2 a b c r h1 hcond ih =>
    exfalso
    have hb := h b (by simp)
    simp only [Bool.and_eq_true] at hcond
    rw [hb] at hcond
    simp at hcond
  | case3 a b c r h1 h2 ih =>
    rw [kebab2, if_neg h1, if_neg h2,
      ih (fun x hx => h x (List.mem_cons_of_mem a hx))]
  | case4 l hl =>
    rcases l with _ | ⟨a, _ | ⟨b, _ | ⟨c, r⟩⟩⟩
    · rfl
    · rfl
    · rfl
    · exact (hl a b c r rfl).elim

theorem kebabSeps_id (l : Str) (h : ∀ c ∈ l, isKebabSep c = false) :
    kebabSeps l = l := by
  induction l using kebabSeps.induct with
  | case1 => rfl
  | case2 c hc =>
    have := h c (by simp)
    rw [hc] at this
    simp at this
  | case3 c hc =>
    rw [kebabSeps, if_neg hc]
  | case4 c d r hc hd ih =>
    have := h c (by simp)
    rw [hc] at this
    simp at this
  | case5 c d r hc hd ih =>
    have := h c (by simp)
    rw [hc] at this
    simp at this
  | case6 c d r hc ih =>
    rw [kebabSeps, if_neg hc, ih (fun x hx => h x (List.mem_cons_of_mem c hx))]

theorem mem_kebabSeps (l : Str) (c : Char) (hc : c ∈ kebabSeps l) :
    isKebabSep c = false := by
  induction l using kebabSeps.induct with
  | case1 => simp [kebabSeps] at hc
  | case2 d hd =>
    rw [kebabSeps, if_pos hd] at hc
    simp at hc
    rw [hc]
    decide
  | case3 d hd =>
    rw [kebabSeps, if_neg hd] at hc
    simp at hc
    rw [hc]
    simpa using hd
  | case4 d e r hd he ih =>
    rw [kebabSeps, if_pos hd, if_pos he] at hc
    exact ih hc
  | case5 d e r hd he ih =>
    rw [kebabSeps, if_pos hd, if_neg he] at hc
    rcases List.mem_cons.mp hc with h1 | h1
    · rw [h1]; decide
    · exact ih h1
  | case6 d e r hd ih =>
    rw [kebabSeps, if_neg hd] at hc
    rcases List.mem_cons.mp hc with h1 | h1
    · rw [h1]; simpa using hd
    · exact ih h1

theorem camelRepl_id (l : Str) (h : ∀ c ∈ l, isCamelSep c = false) :
    camelRepl l = l := by
  induction l using camelRepl.induct with
  | case1 => rfl
  | case2 c hc =>
    have := h c (by simp)
    rw [hc] at this
    simp at this
  | case3 c hc =>
    rw [camelRepl, if_neg hc]
  | case4 c d r hc hd ih =>
    have := h c (by simp)
    rw [hc] at this
    simp at this
  | case5 c d r hc hd ih =>
    have := h c (by simp)
    rw [hc] at this
    simp at this
  | case6 c d r hc ih =>
    rw [camelRepl, if_neg hc, ih (fun x hx => h x (List.mem_cons_of_mem c hx))]

theorem mem_camelRepl (l : Str) (c : Char) (hc : c ∈ camelRepl l) :
    isCamelSep c = false := by
  induction l using camelRepl.induct with
  | case1 => simp [camelRepl] at hc
  | case2 d hd =>
    rw [camelRepl, if_pos hd] at hc
    simp at hc
  | case3 d hd =>
    rw [camelRepl, if_neg hd] at hc
    simp at hc
    rw [hc]
    simpa using hd
  | case4 d e r hd he ih =>
    rw [camelRepl, if_pos hd, if_pos he] at hc
    exact ih hc
  | case5 d e r hd he ih =>
    rw [camelRepl, if_pos hd, if_neg he] at hc
    rcases List.mem_cons.mp hc with h1 | h1
    · rw [h1]
      exact isCamelSep_toUpper e (by simpa using he)
    · exact ih h1
  | case6 d e r hd ih =>
    rw [camelRepl, if_neg hd] at hc
    rcases List.mem_cons.mp hc with h1 | h1
    · rw [h1]; simpa using hd
    · exact ih h1

theorem dropWhile_id (p : Char → Bool) (l : Str) (h : ∀ c ∈ l, p c = false) :
    l.dropWhile p = l := by
  cases l with
  | nil => rfl
  | cons c r =>
    rw [List.dropWhile_cons, if_neg (by simp [h c (by simp)])]

theorem stripEdgeSeps_id (l : Str) (h : ∀ c ∈ l, isCamelSep c = false) :
    stripEdgeSeps l = l := by
  unfold stripEdgeSeps dropTrailing
  rw [dropWhile_id _ _ h, dropWhile_id _ _ (fun c hc => h c (List.mem_reverse.mp hc)),
    List.reverse_reverse]

/-- C8: each case transform is idempotent: `toKebab (toKebab x) = toKebab x`,
`toCamel (toCamel x) = toCamel x` and `toPascal (toPascal x) = toPascal x`
for every input string `x`. -/
theorem case_transforms_idempotent (x : Str) :
    toKebab (toKebab x) = toKebab x ∧
    toCamel (toCamel x) = toCamel x ∧
    toPascal (toPascal x) = toPascal x := by
  refine ⟨?_, ?_, ?_⟩
  · have hnoupper : ∀ c ∈ toKebab x, isUpperAscii c = false := by
      intro c hc
      unfold toKebab at hc
      rcases List.mem_map.mp hc with ⟨d, _, hd⟩
      rw [← hd]
      exact isUpperAscii_toLower d
    have hnosep : ∀ c ∈ toKebab x, isKebabSep c = false := by
      intro c hc
      unfold toKebab at hc
      rcases List.mem_map.mp hc with ⟨d, hdm, hd⟩
      rw [← hd]
      exact isKebabSep_toLower d (mem_kebabSeps _ d hdm)
    have hmap : (toKebab x).map Char.toLower = toKebab x := by
      unfold toKebab
      rw [List.map_map]
      exact List.map_congr_left (fun c _ => toLower_toLower c)
    conv_lhs => rw [toKebab]
    rw [kebab1_id _ hnoupper, kebab2_id _ hnoupper, kebabSeps_id _ hnosep]
    exact hmap
  · cases hz : camelRepl x with
    | nil =>
      have hval : toCamel x = [] := by rw [toCamel, hz]; rfl
      rw [hval]
      rfl
    | cons c r =>
      have hall : ∀ e ∈ Char.toLower c :: r, isCamelSep e = false := by
        intro e he
        rcases List.mem_cons.mp he with h1 | h1
        · rw [h1]
          exact isCamelSep_toLower c (mem_camelRepl x c (hz ▸ List.mem_cons_self c r))
        · exact mem_camelRepl x e (hz ▸ List.mem_cons_of_mem c h1)
      have hval : toCamel x = Char.toLower c :: r := by rw [toCamel, hz]; rfl
      rw [hval, toCamel, camelRepl_id _ hall]
      simp only [lowerFirst, toLower_toLower]
  · by_cases hx : x = []
    · rw [hx]
      rfl
    · by_cases ht : stripEdgeSeps x = []
      · have hval : toPascal x = [] := by rw [toPascal, if_neg hx, if_pos ht]
        rw [hval]
        rfl
      · cases hy : camelRepl (stripEdgeSeps x) with
        | nil =>
          have hval : toPascal x = [] := by
            rw [toPascal, if_neg hx, if_neg ht, hy]
            rfl
          rw [hval]
          rfl
        | cons c t =>
          have hall : ∀ e ∈ Char.toUpper c :: t, isCamelSep e = false := by
            intro e he
            rcases List.mem_cons.mp he with h1 | h1
            · rw [h1]
              exact isCamelSep_toUpper c
                (mem_camelRepl _ c (hy ▸ List.mem_cons_self c t))
            · exact mem_camelRepl _ e (hy ▸ List.mem_cons_of_mem c h1)
          have hval : toPascal x = Char.toUpper c :: t := by
            rw [toPascal, if_neg hx, if_neg ht, hy]
            rfl
          rw [hval, toPascal, stripEdgeSeps_id _ hall, if_neg (by simp),
            if_neg (by simp), camelRepl_id _ hall]
          simp only [upperFirst, toUpper_toUpper]

/-! ### Variable Substitution Engine (`src/services/variableSubstitution.ts`)

`apply` is `template.replace(VARIABLE_REGEX, callback)` with
`VARIABLE_REGEX = /\$\{([a-zA-Z_][a-zA-Z0-9_]*)(?:\|([a-zA-Z]+))?\}/g`,
modelled as a left-to-right scan: at each position the regex either matches
(and the callback's result is emitted, the scan resuming after the match) or
the current character is emitted verbatim. A variable map
`Record<string, string>` is modelled as a lookup function
`Str → Option Str`. -/

/-- The regex class `[a-zA-Z_]` (identifier start). -/
def isIdentStart (c : Char) : Bool := isLowerAscii c || isUpperAscii c || c.toNat = 95

/-- The regex class `[a-zA-Z0-9_]` (identifier continuation). -/
def isIdentChar (c : Char) : Bool := isIdentStart c || isDigitAscii c

/-- The regex class `[a-zA-Z]` (transform name letters). -/
def isAsciiLetter (c : Char) : Bool := isLowerAscii c || isUpperAscii c

/-- Match the part of `VARIABLE_REGEX` after the literal `${`: a greedy
identifier, an optional `|letters` group, and the closing `}`. Returns the
captured name, the optional captured transform, and the text after the
whole match; `none` when the regex cannot match here (the optional group is
abandoned on failure, but `}` can then never follow, as in `${a|b1}`). -/
def parseToken : Str → Option (Str × Option Str × Str)
  | [] => none
  | c :: rest =>
    if isIdentStart c then
      let name := c :: rest.takeWhile isIdentChar
      match rest.dropWhile isIdentChar with
      | '}' :: r => some (name, none, r)
      | '|' :: r =>
        if r.takeWhile isAsciiLetter = [] then none
        else
          match r.dropWhile isAsciiLetter with
          | '}' :: r2 => some (name, some (r.takeWhile isAsciiLetter), r2)
          | _ => none
      | _ => none
    else none

theorem length_dropWhile_le (p : Char → Bool) (l : Str) :
    (l.dropWhile p).length ≤ l.length := by
  induction l with
  | nil => simp
  | cons c r ih =>
    rw [List.dropWhile_cons]
    split_ifs
    · exact Nat.le_trans ih (by simp)
    · simp
theorem parseToken_length (cs name : Str) (tr : Option Str) (r : Str)
    (h : parseToken cs = some (name, tr, r)) : r.length < cs.length := by
  cases cs with
  | nil => simp [parseToken] at h
  | cons c rest =>
    rw [parseToken] at h
    split_ifs at h with hs
    have hlen1 := length_dropWhile_le isIdentChar rest
    split at h
    · next r1 heq =>
      simp only [Option.some.injEq, Prod.mk.injEq] at h
      rw [heq] at hlen1
      simp only [List.length_cons] at hlen1
      rw [← h.2.2]
      simp only [List.length_cons]
      omega
    · next r1 heq =>
      have hlen2 := length_dropWhile_le isAsciiLetter r1
      rw [heq] at hlen1
      simp only [List.length_cons] at hlen1
      split_ifs at h with htr
      split at h
      · next r2 heq2 =>
        simp only [Option.some.injEq, Prod.mk.injEq] at h
        rw [heq2] at hlen2
        simp only [List.length_cons] at hlen2
        rw [← h.2.2]
        simp only [List.length_cons]
        omega
      · simp at h
    · simp at h


/-- Global replacement `/\$\{/g → "\\${"` (first step of `sanitizeValue`). -/
def escTemplateOpen : Str → Str
  | '$' :: '{' :: r => '\\' :: '$' :: '{' :: escTemplateOpen r
  | c :: r => c :: escTemplateOpen r
  | [] => []

/-- Global replacement `` /`/g → "\\`" `` (second step of `sanitizeValue`). -/
def escBacktick : Str → Str
  | '`' :: r => '\\' :: '`' :: escBacktick r
  | c :: r => c :: escBacktick r
  | [] => []

/-- Global replacement `/\\/g → "\\\\"` (third step of `sanitizeValue`). -/
def escBackslash : Str → Str
  | '\\' :: r => '\\' :: '\\' :: escBackslash r
  | c :: r => c :: escBackslash r
  | [] => []

/-- `VariableSubstitution.sanitizeValue`: the three replacements in source
order (`${` first, backticks second, backslashes last). -/
def sanitizeValue (value : Str) : Str :=
  escBackslash (escBacktick (escTemplateOpen value))

/-- `VariableSubstitution.applyTransformation`: dispatch on the lowercased
transform name; unknown names are a no-op. -/
def applyTransformation (value transform : Str) : Str :=
  if transform.map Char.toLower = "camelcase".toList then toCamel value
  else if transform.map Char.toLower = "kebabcase".toList then toKebab value
  else if transform.map Char.toLower = "pascalcase".toList then toPascal value
  else value

/-- The text after `${` in a token: the name, an optional `|transform`, and
the closing `}`. -/
def tokenBody (name : Str) (tr : Option Str) : Str :=
  name ++ (match tr with | none => [] | some t => '|' :: t) ++ ['}']

/-- The full text matched by `VARIABLE_REGEX` for a captured name and
optional transform: `${name}` or `${name|tr}`. -/
def tokenText (name : Str) (tr : Option Str) : Str :=
  '$' :: '{' :: tokenBody name tr

/-- The replacer callback of `apply`: look the name up, return the whole
original match if absent, otherwise sanitize and optionally transform. -/
def matchReplacement (vars : Str → Option Str) (name : Str) (tr : Option Str) : Str :=
  match vars name with
  | none => tokenText name tr
  | some v =>
    match tr with
    | none => sanitizeValue v
    | some t => applyTransformation (sanitizeValue v) t

/-- The scan underlying `template.replace(VARIABLE_REGEX, ...)`. -/
def applyGo (vars : Str → Option Str) : Str → Str
  | '$' :: '{' :: rest =>
    (match hp : parseToken rest with
     | some (name, tr, r) => matchReplacement vars name tr ++ applyGo vars r
     | none => '$' :: applyGo vars ('{' :: rest))
  | c :: rest => c :: applyGo vars rest
  | [] => []
termination_by s => s.length
decreasing_by
  · have hlt := parseToken_length _ _ _ _ hp
    simp only [List.length_cons]
    omega
  · simp
  · simp

/-- `VariableSubstitution.apply`. -/
def apply (template : Str) (vars : Str → Option Str) : Str :=
  applyGo vars template

/-- The scan underlying `extractVariableNames` (collect `match[1]`). -/
def extractGo : Str → List Str
  | '$' :: '{' :: rest =>
    (match hp : parseToken rest with
     | some (name, _, r) => name :: extractGo r
     | none => extractGo ('{' :: rest))
  | _ :: rest => extractGo rest
  | [] => []
termination_by s => s.length
decreasing_by
  · have hlt := parseToken_length _ _ _ _ hp
    simp only [List.length_cons]
    omega
  · simp
  · simp

/-- `Set` insertion followed by `Array.from`: first occurrences, in order. -/
def dedupKeepFirst (seen : List Str) : List Str → List Str
  | [] => []
  | x :: xs =>
    if x ∈ seen then dedupKeepFirst seen xs
    else x :: dedupKeepFirst (x :: seen) xs

/-- `VariableSubstitution.extractVariableNames`. -/
def extractVariableNames (template : Str) : List Str :=
  dedupKeepFirst [] (extractGo template)

theorem applyGo_token (vars : Str → Option Str) (rest name : Str)
    (tr : Option Str) (r : Str) (hp : parseToken rest = some (name, tr, r)) :
    applyGo vars ('$' :: '{' :: rest) =
      matchReplacement vars name tr ++ applyGo vars r := by
  rw [applyGo.eq_1]
  split
  · next name2 tr2 r2 heq =>
    rw [hp] at heq
    simp only [Option.some.injEq, Prod.mk.injEq] at heq
    obtain ⟨h1, h2, h3⟩ := heq
    rw [h1, h2, h3]
  · next heq =>
    rw [hp] at heq
    simp at heq

theorem applyGo_fail (vars : Str → Option Str) (rest : Str)
    (hp : parseToken rest = none) :
    applyGo vars ('$' :: '{' :: rest) = '$' :: applyGo vars ('{' :: rest) := by
  rw [applyGo.eq_1]
  split
  · next name2 tr2 r2 heq =>
    rw [hp] at heq
    simp at heq
  · rfl

theorem extractGo_token (rest name : Str) (tr : Option Str) (r : Str)
    (hp : parseToken rest = some (name, tr, r)) :
    extractGo ('$' :: '{' :: rest) = name :: extractGo r := by
  rw [extractGo.eq_1]
  split
  · next name2 tr2 r2 heq =>
    rw [hp] at heq
    simp only [Option.some.injEq, Prod.mk.injEq] at heq
    obtain ⟨h1, h2, h3⟩ := heq
    rw [h1, h3]
  · next heq =>
    rw [hp] at heq
    simp at heq

theorem extractGo_fail (rest : Str) (hp : parseToken rest = none) :
    extractGo ('$' :: '{' :: rest) = extractGo ('{' :: rest) := by
  rw [extractGo.eq_1]
  split
  · next name2 tr2 r2 heq =>
    rw [hp] at heq
    simp at heq
  · rfl

theorem applyGo_no_dollar (vars : Str → Option Str) (s : Str)
    (h : ∀ c ∈ s, c ≠ '$') : applyGo vars s = s := by
  induction s with
  | nil => rw [applyGo.eq_3]
  | cons c r ih =>
    rw [applyGo.eq_2 vars c r (fun r1 hc _ => h c (by simp) hc),
      ih (fun d hd => h d (List.mem_cons_of_mem c hd))]

theorem mem_dedupKeepFirst (l seen : List Str) (x : Str) :
    x ∈ dedupKeepFirst seen l ↔ x ∈ l ∧ x ∉ seen := by
  induction l generalizing seen with
  | nil => simp [dedupKeepFirst]
  | cons a as ih =>
    rw [dedupKeepFirst]
    split_ifs with ha
    · rw [ih]
      constructor
      · rintro ⟨h1, h2⟩
        exact ⟨List.mem_cons_of_mem a h1, h2⟩
      · rintro ⟨h1, h2⟩
        rcases List.mem_cons.mp h1 with h3 | h3
        · exact absurd (by rw [h3]; exact ha) h2
        · exact ⟨h3, h2⟩
    · constructor
      · intro hmem
        rcases List.mem_cons.mp hmem with h1 | h1
        · exact ⟨by rw [h1]; exact List.mem_cons_self a as, by rw [h1]; exact ha⟩
        · rcases (ih (a :: seen)).mp h1 with ⟨h2, h3⟩
          exact ⟨List.mem_cons_of_mem a h2, fun hx => h3 (List.mem_cons_of_mem a hx)⟩
      · rintro ⟨h1, h2⟩
        rcases List.mem_cons.mp h1 with h3 | h3
        · rw [h3]
          exact List.mem_cons_self a _
        · by_cases hxa : x = a
          · rw [hxa]
            exact List.mem_cons_self a _
          · refine List.mem_cons_of_mem a ((ih (a :: seen)).mpr ⟨h3, fun hx => ?_⟩)
            rcases List.mem_cons.mp hx with h4 | h4
            · exact hxa h4
            · exact h2 h4

/-- Decidable "starts with" on character lists. -/
def startsWithSeq : Str → Str → Bool
  | [], _ => true
  | _ :: _, [] => false
  | a :: as, b :: bs => a = b && startsWithSeq as bs

/-- Decidable "occurs as a contiguous substring" on character lists
(the observation `String.prototype.includes` makes). -/
def containsSeq (needle : Str) : Str → Bool
  | [] => startsWithSeq needle []
  | c :: rest => startsWithSeq needle (c :: rest) || containsSeq needle rest

theorem applyGo_congr (v1 v2 : Str → Option Str) (s : Str)
    (h : ∀ n ∈ extractGo s, v1 n = v2 n) : applyGo v1 s = applyGo v2 s := by
  induction s using extractGo.induct with
  | case1 rest name tr r hp ih =>
    rw [applyGo_token v1 rest name tr r hp, applyGo_token v2 rest name tr r hp]
    have hext := extractGo_token rest name tr r hp
    have hname : v1 name = v2 name := h name (by rw [hext]; simp)
    have hrec : applyGo v1 r = applyGo v2 r :=
      ih (fun n hn => h n (by rw [hext]; exact List.mem_cons_of_mem name hn))
    rw [hrec]
    unfold matchReplacement
    rw [hname]
  | case2 rest hp ih =>
    rw [applyGo_fail v1 rest hp, applyGo_fail v2 rest hp]
    have hext := extractGo_fail rest hp
    rw [ih (fun n hn => h n (by rw [hext]; exact hn))]
  | case3 c r hns ih =>
    rw [applyGo.eq_2 v1 c r hns, applyGo.eq_2 v2 c r hns]
    have hext := extractGo.eq_2 c r hns
    rw [ih (fun n hn => h n (by rw [hext]; exact hn))]
  | case4 => rw [applyGo.eq_3, applyGo.eq_3]

/-- The variable map of the nested-expansion scenario:
`{outer: "${inner}", inner: "leaked"}`. -/
def leakVars : Str → Option Str :=
  fun n =>
    if n = "outer".toList then some ("${inner}".toList)
    else if n = "inner".toList then some ("leaked".toList)
    else none

/-- C2: `apply` performs a single round of substitution: its output depends
only on the bindings of the names tokenized in the template itself (so a
token-shaped `${name}` inside a substituted value never resolves `name`),
and in particular `apply "${outer}" {outer: "${inner}", inner: "leaked"}`
does not contain "leaked". -/
theorem substitution_single_round :
    (∀ (template : Str) (v1 v2 : Str → Option Str),
        (∀ n ∈ extractVariableNames template, v1 n = v2 n) →
        apply template v1 = apply template v2) ∧
    containsSeq "leaked".toList (apply "${outer}".toList leakVars) = false := by
  constructor
  · intro template v1 v2 hagree
    refine applyGo_congr v1 v2 template (fun n hn => hagree n ?_)
    unfold extractVariableNames
    rw [mem_dedupKeepFirst]
    simpa using hn
  · have hval : apply "${outer}".toList leakVars =
        ['\\', '\\', '$', '{', 'i', 'n', 'n', 'e', 'r', '}'] := by
      rw [apply, show "${outer}".toList = '$' :: '{' :: "outer\x7d".toList from rfl,
        applyGo_token leakVars _ "outer".toList none [] (by decide),
        applyGo.eq_3]
      decide
    rw [hval]
    decide

/-- The net effect of the three escaping passes as implemented: because the
backslash pass runs last, the backslash introduced for a `${` or a backtick
is itself doubled, so `${` gains two leading backslashes, a backtick gains
two leading backslashes, and each original backslash becomes two. -/
def sanitizedNetEffect : Str → Str
  | '$' :: '{' :: r => '\\' :: '\\' :: '$' :: '{' :: sanitizedNetEffect r
  | '`' :: r => '\\' :: '\\' :: '`' :: sanitizedNetEffect r
  | '\\' :: r => '\\' :: '\\' :: sanitizedNetEffect r
  | c :: r => c :: sanitizedNetEffect r
  | [] => []

theorem sanitizeValue_eq_netEffect (v : Str) :
    sanitizeValue v = sanitizedNetEffect v := by
  induction v using sanitizedNetEffect.induct with
  | case1 r ih =>
    unfold sanitizeValue at ih ⊢
    rw [show escTemplateOpen ('$' :: '{' :: r) = '\\' :: '$' :: '{' :: escTemplateOpen r from rfl,
      escBacktick.eq_2 _ _ (by decide), escBacktick.eq_2 _ _ (by decide),
      escBacktick.eq_2 _ _ (by decide),
      show ∀ l : Str, escBackslash ('\\' :: l) = '\\' :: '\\' :: escBackslash l from fun l => rfl,
      escBackslash.eq_2 _ _ (by decide), escBackslash.eq_2 _ _ (by decide), ih,
      show sanitizedNetEffect ('$' :: '{' :: r) = '\\' :: '\\' :: '$' :: '{' :: sanitizedNetEffect r from rfl]
  | case2 r ih =>
    unfold sanitizeValue at ih ⊢
    rw [escTemplateOpen.eq_2 _ _ (fun _ h _ => absurd h (by decide)),
      show ∀ l : Str, escBacktick ('`' :: l) = '\\' :: '`' :: escBacktick l from fun l => rfl,
      show ∀ l : Str, escBackslash ('\\' :: l) = '\\' :: '\\' :: escBackslash l from fun l => rfl,
      escBackslash.eq_2 _ _ (by decide), ih,
      show sanitizedNetEffect ('`' :: r) = '\\' :: '\\' :: '`' :: sanitizedNetEffect r from rfl]
  | case3 r ih =>
    unfold sanitizeValue at ih ⊢
    rw [escTemplateOpen.eq_2 _ _ (fun _ h _ => absurd h (by decide)),
      escBacktick.eq_2 _ _ (by decide),
      show ∀ l : Str, escBackslash ('\\' :: l) = '\\' :: '\\' :: escBackslash l from fun l => rfl,
      ih,
      show sanitizedNetEffect ('\\' :: r) = '\\' :: '\\' :: sanitizedNetEffect r from rfl]
  | case4 c r h1 h2 h3 ih =>
    unfold sanitizeValue at ih ⊢
    rw [escTemplateOpen.eq_2 _ _ h1, escBacktick.eq_2 _ _ h2,
      escBackslash.eq_2 _ _ h3, ih, sanitizedNetEffect.eq_4 c r h1 h2 h3]
  | case5 => rfl

/-- `[A-Za-z_][A-Za-z0-9_]*`: a well-formed variable identifier. -/
def isIdentName : Str → Bool
  | [] => false
  | c :: rest => isIdentStart c && rest.all isIdentChar

/-- The optional transform group: absent, or one-or-more ASCII letters. -/
def isLettersOpt : Option Str → Bool
  | none => true
  | some [] => false
  | some (t :: ts) => isAsciiLetter t && ts.all isAsciiLetter

theorem takeWhile_all_append (p : Char → Bool) (l1 : Str) (x : Char) (l2 : Str)
    (h1 : ∀ c ∈ l1, p c = true) (h2 : p x = false) :
    (l1 ++ x :: l2).takeWhile p = l1 := by
  induction l1 with
  | nil =>
    rw [List.nil_append, List.takeWhile_cons, h2]
    simp
  | cons a as ih =>
    rw [List.cons_append, List.takeWhile_cons, h1 a (by simp)]
    simp only [if_pos]
    rw [ih (fun c hc => h1 c (List.mem_cons_of_mem a hc))]

theorem dropWhile_all_append (p : Char → Bool) (l1 : Str) (x : Char) (l2 : Str)
    (h1 : ∀ c ∈ l1, p c = true) (h2 : p x = false) :
    (l1 ++ x :: l2).dropWhile p = x :: l2 := by
  induction l1 with
  | nil =>
    rw [List.nil_append, List.dropWhile_cons, h2]
    simp
  | cons a as ih =>
    rw [List.cons_append, List.dropWhile_cons, h1 a (by simp)]
    simp only [if_true]
    exact ih (fun c hc => h1 c (List.mem_cons_of_mem a hc))

theorem tokenText_eq (name : Str) (tr : Option Str) :
    tokenText name tr = '$' :: '{' :: tokenBody name tr :=
  rfl

theorem parseToken_tokenText (name : Str) (tr : Option Str)
    (hn : isIdentName name = true) (ht : isLettersOpt tr = true) :
    parseToken (tokenBody name tr) = some (name, tr, []) := by
  cases name with
  | nil => simp [isIdentName] at hn
  | cons c rest =>
    rw [isIdentName, Bool.and_eq_true] at hn
    obtain ⟨hc, hrest⟩ := hn
    have hrest' : ∀ d ∈ rest, isIdentChar d = true := by
      intro d hd
      exact List.all_eq_true.mp hrest d hd
    cases tr with
    | none =>
      rw [show tokenBody (c :: rest) none = c :: (rest ++ '}' :: []) from by
        simp [tokenBody]]
      rw [parseToken, if_pos hc,
        takeWhile_all_append isIdentChar rest '}' [] hrest' (by decide),
        dropWhile_all_append isIdentChar rest '}' [] hrest' (by decide)]
      rfl
    | some t =>
      cases t with
      | nil => simp [isLettersOpt] at ht
      | cons t0 ts =>
        rw [isLettersOpt, Bool.and_eq_true] at ht
        obtain ⟨ht0, hts⟩ := ht
        have hlet : ∀ d ∈ t0 :: ts, isAsciiLetter d = true := by
          intro d hd
          rcases List.mem_cons.mp hd with h1 | h1
          · rw [h1]; exact ht0
          · exact List.all_eq_true.mp hts d h1
        rw [show tokenBody (c :: rest) (some (t0 :: ts)) =
            c :: (rest ++ '|' :: ((t0 :: ts) ++ '}' :: [])) from by
          simp [tokenBody]]
        rw [parseToken, if_pos hc,
          takeWhile_all_append isIdentChar rest '|' _ hrest' (by decide),
          dropWhile_all_append isIdentChar rest '|' _ hrest' (by decide)]
        simp only []
        rw [takeWhile_all_append isAsciiLetter (t0 :: ts) '}' [] hlet (by decide),
          dropWhile_all_append isAsciiLetter (t0 :: ts) '}' [] hlet (by decide)]
        rw [if_neg (by simp)]
        rfl

/-- C1 counterexample: substituting the value `"${"` (via `apply` on the
template `${x}`) yields the four characters `\`, `\`, `$`, `{` — two
backslashes before the `${`, not exactly one as the claim states. -/
theorem sanitize_escape_counterexample :
    apply "${x}".toList (fun n => if n = ['x'] then some ['$', '{'] else none) =
      ['\\', '\\', '$', '{'] ∧
    (['\\', '\\', '$', '{'] : Str) ≠ ['\\', '$', '{'] := by
  constructor
  · rw [apply, show "${x}".toList = '$' :: '{' :: "x\x7d".toList from rfl,
      applyGo_token _ _ ['x'] none [] (by decide), applyGo.eq_3]
    decide
  · decide

/-- C1 (amended): the sanitization `apply` performs on every substituted
value has net effect `sanitizedNetEffect`: every `${` ends up preceded by
exactly two backslashes, every backtick ends up preceded by exactly two
backslashes, and every original backslash is doubled — the backslash
introduced by the `${`/backtick escapes is itself escaped again, because the
backslash-escaping pass runs after them. -/
theorem sanitize_net_effect_amended :
    (∀ v : Str, sanitizeValue v = sanitizedNetEffect v) ∧
    (∀ (name v : Str) (vars : Str → Option Str),
        isIdentName name = true → vars name = some v →
        apply (tokenText name none) vars = sanitizedNetEffect v) := by
  constructor
  · exact sanitizeValue_eq_netEffect
  · intro name v vars hn hv
    have hstep : apply (tokenText name none) vars =
        matchReplacement vars name none ++ applyGo vars [] := by
      rw [apply, tokenText_eq name none]
      exact applyGo_token vars _ name none []
        (parseToken_tokenText name none hn (by decide))
    rw [hstep, applyGo.eq_3, List.append_nil]
    unfold matchReplacement
    rw [hv]
    exact sanitizeValue_eq_netEffect v

/-- Witness for the amended C1 at name `x` and value `"${"`. -/
theorem sanitize_net_effect_witness :
    isIdentName ['x'] = true ∧
    (fun n => if n = ['x'] then some ['$', '{'] else none) ['x'] = some ['$', '{'] ∧
    apply (tokenText ['x'] none) (fun n => if n = ['x'] then some ['$', '{'] else none) =
      sanitizedNetEffect ['$', '{'] :=
  ⟨by decide, by simp,
    sanitize_net_effect_amended.2 ['x'] ['$', '{'] _ (by decide) (by simp)⟩

/-- C9: `apply` leaves malformed tokens (`${123}`, `${}`, `${-x}`) verbatim
under every variable map, and leaves the text of a well-formed token
unchanged (without error) when its name is absent from the map. -/
theorem apply_malformed_and_missing (vars : Str → Option Str) (name : Str)
    (tr : Option Str) (hn : isIdentName name = true)
    (ht : isLettersOpt tr = true) (hmiss : vars name = none) :
    apply "${123}".toList vars = "${123}".toList ∧
    apply "${}".toList vars = "${}".toList ∧
    apply "${-x}".toList vars = "${-x}".toList ∧
    apply (tokenText name tr) vars = tokenText name tr := by
  refine ⟨?_, ?_, ?_, ?_⟩
  · rw [apply, show "${123}".toList = '$' :: '{' :: "123\x7d".toList from rfl,
      applyGo_fail vars _ (by decide), applyGo_no_dollar vars _ (by decide)]
  · rw [apply, show "${}".toList = '$' :: '{' :: "\x7d".toList from rfl,
      applyGo_fail vars _ (by decide), applyGo_no_dollar vars _ (by decide)]
  · rw [apply, show "${-x}".toList = '$' :: '{' :: "-x\x7d".toList from rfl,
      applyGo_fail vars _ (by decide), applyGo_no_dollar vars _ (by decide)]
  · have hstep : apply (tokenText name tr) vars =
        matchReplacement vars name tr ++ applyGo vars [] := by
      rw [apply, tokenText_eq name tr]
      exact applyGo_token vars _ name tr [] (parseToken_tokenText name tr hn ht)
    rw [hstep, applyGo.eq_3, List.append_nil]
    unfold matchReplacement
    rw [hmiss]

/-- Witness for C9 at name `x`, no transform, the empty variable map. -/
theorem apply_malformed_and_missing_witness :
    isIdentName ['x'] = true ∧ isLettersOpt none = true ∧
    (fun _ : Str => (none : Option Str)) ['x'] = none ∧
    apply (tokenText ['x'] none) (fun _ => none) = tokenText ['x'] none :=
  ⟨by decide, by decide, rfl,
    (apply_malformed_and_missing (fun _ => none) ['x'] none
      (by decide) (by decide) rfl).2.2.2⟩

/-- Variable map `{a: "1", junk: "z"}` for the C2 witness. -/
def witVars1 : Str → Option Str :=
  fun n => if n = ['a'] then some ['1'] else some ['z']

/-- Variable map `{a: "1"}` for the C2 witness. -/
def witVars2 : Str → Option Str :=
  fun n => if n = ['a'] then some ['1'] else none

/-- Witness for C2: two maps agreeing on the template's one variable give
the same output. -/
theorem substitution_single_round_witness :
    (∀ n ∈ extractVariableNames "${a}".toList, witVars1 n = witVars2 n) ∧
    apply "${a}".toList witVars1 = apply "${a}".toList witVars2 := by
  have hnil : extractGo [] = [] := by rw [extractGo.eq_3]
  have hext : extractVariableNames "${a}".toList = [['a']] := by
    rw [extractVariableNames, show "${a}".toList = '$' :: '{' :: "a\x7d".toList from rfl,
      extractGo_token _ ['a'] none [] (by decide), hnil]
    decide
  have hagree : ∀ n ∈ extractVariableNames "${a}".toList, witVars1 n = witVars2 n := by
    rw [hext]
    intro n hn
    simp only [List.mem_singleton] at hn
    rw [hn]
    decide
  exact ⟨hagree, substitution_single_round.1 _ witVars1 witVars2 hagree⟩

/-! ### Path Validator (`src/utils/pathValidator.ts`)

Paths are modelled POSIX-style: `path.sep = '/'`, `path.isAbsolute` tests a
leading `/`, and `path.normalize` / `path.resolve` are the Node `path.posix`
algorithms (segment-wise `.`/`..` resolution). -/

/-- `String.prototype.trim`. -/
def jsTrim (s : Str) : Str := dropTrailing isJsSpace (s.dropWhile isJsSpace)

/-- One-char test of `INVALID_CHARS = /[<>:"|?*\x00-\x1F]/`
(codes 60 62 58 34 124 63 42, and 0-31). -/
def isInvalidFsChar (c : Char) : Bool :=
  c.toNat = 60 || c.toNat = 62 || c.toNat = 58 || c.toNat = 34 ||
  c.toNat = 124 || c.toNat = 63 || c.toNat = 42 || c.toNat ≤ 31

/-- The `(\.|$)` group closing `RESERVED_NAMES`. -/
def reservedTailOk : Str → Bool
  | [] => true
  | '.' :: _ => true
  | _ => false

/-- Test of `RESERVED_NAMES = /^(CON|PRN|AUX|NUL|COM[0-9]|LPT[0-9])(\.|$)/i`
(note the digit class is `[0-9]`, so `COM0` and `LPT0` match). -/
def reservedNameTest (s : Str) : Bool :=
  ((s.map Char.toLower).take 3 = "con".toList &&
      reservedTailOk ((s.map Char.toLower).drop 3)) ||
  ((s.map Char.toLower).take 3 = "prn".toList &&
      reservedTailOk ((s.map Char.toLower).drop 3)) ||
  ((s.map Char.toLower).take 3 = "aux".toList &&
      reservedTailOk ((s.map Char.toLower).drop 3)) ||
  ((s.map Char.toLower).take 3 = "nul".toList &&
      reservedTailOk ((s.map Char.toLower).drop 3)) ||
  (((s.map Char.toLower).take 3 = "com".toList ||
      (s.map Char.toLower).take 3 = "lpt".toList) &&
    (match (s.map Char.toLower).drop 3 with
     | d :: r => isDigitAscii d && reservedTailOk r
     | [] => false))

/-- `Buffer.byteLength(s, "utf8")`. -/
def utf8ByteLen (s : Str) : Nat := (s.map Char.utf8Size).sum

/-- Node `path.posix.isAbsolute`. -/
def isAbsolutePosix : Str → Bool
  | '/' :: _ => true
  | _ => false

/-- `trimmed.startsWith(".")/(" ")` or `endsWith` of the same. -/
def edgeDotSpace (s : Str) : Bool :=
  s.head? = some '.' || s.head? = some ' ' ||
  s.getLast? = some '.' || s.getLast? = some ' '

/-- `PathValidator.validateFolderName`: the checks in source order, first
failing check wins. -/
def validateFolderName (folderName : Str) : Option String :=
  if folderName = [] ∨ jsTrim folderName = [] then
    some "Folder name cannot be empty"
  else if containsSeq ['.', '.'] (jsTrim folderName) then
    some "Folder name cannot contain \"..\""
  else if isAbsolutePosix (jsTrim folderName) then
    some "Folder name cannot be an absolute path"
  else if (jsTrim folderName).contains '/' || (jsTrim folderName).contains '\\' then
    some "Folder name cannot contain path separators (/ or \\)"
  else if (jsTrim folderName).any isInvalidFsChar then
    some "Folder name contains invalid characters: < > : \" | ? *"
  else if reservedNameTest (jsTrim folderName) then
    some "This is a reserved system folder name"
  else if utf8ByteLen (jsTrim folderName) > 255 then
    some "Folder name too long (max 255 bytes)"
  else if edgeDotSpace (jsTrim folderName) then
    some "Folder name cannot start or end with dots or spaces"
  else none

/-- A character the split regex `/[/\\]/` matches. -/
def isSlashChar (c : Char) : Bool := c = '/' || c = '\\'

/-- Global replacement `/\.\./g → ""` (left-to-right, non-overlapping). -/
def removeDotDot : Str → Str
  | '.' :: '.' :: r => removeDotDot r
  | c :: r => c :: removeDotDot r
  | [] => []

/-- JS `split(/[/\\]/)`: empty fields kept, `""` gives one empty field. -/
def splitSeps : Str → List Str
  | [] => [[]]
  | c :: r =>
    if isSlashChar c then [] :: splitSeps r
    else
      match splitSeps r with
      | seg :: rest => (c :: seg) :: rest
      | [] => [[c]]

/-- `Array.prototype.join(path.sep)` with the POSIX separator. -/
def joinSep : List Str → Str
  | [] => []
  | [seg] => seg
  | seg :: rest => seg ++ '/' :: joinSep rest

/-- The segment filter of `sanitizePath`: drop empty (falsy), `.` and `..`
segments. -/
def keepSegment (seg : Str) : Bool :=
  !(seg = [] : Bool) && !(seg = ['.'] : Bool) && !(seg = ['.', '.'] : Bool)

/-- `PathValidator.sanitizePath`: remove `..` everywhere, strip leading
separators, split on `/` or `\`, drop empty/`.`/`..` segments, re-join with
the platform separator. -/
def sanitizePath (relativePath : Str) : Str :=
  joinSep
    ((splitSeps ((removeDotDot relativePath).dropWhile isSlashChar)).filter
      keepSegment)

/-- Split on `/` only (used by the POSIX `normalize`/`resolve` model). -/
def splitSlash : Str → List Str
  | [] => [[]]
  | c :: r =>
    if c = '/' then [] :: splitSlash r
    else
      match splitSlash r with
      | seg :: rest => (c :: seg) :: rest
      | [] => [[c]]

/-- Node `normalizeString`'s segment stack: skip empty and `.`, pop on `..`
(keeping `..` only when `allowAbove` and nothing to pop). Returns the kept
segments in reverse order. -/
def normStack (allowAbove : Bool) (acc : List Str) : List Str → List Str
  | [] => acc
  | seg :: rest =>
    if seg = [] ∨ seg = ['.'] then normStack allowAbove acc rest
    else if seg = ['.', '.'] then
      match acc with
      | top :: acc2 =>
        if top = ['.', '.'] then normStack allowAbove (seg :: acc) rest
        else normStack allowAbove acc2 rest
      | [] =>
        if allowAbove then normStack allowAbove [seg] rest
        else normStack allowAbove [] rest
    else normStack allowAbove (seg :: acc) rest

/-- Node `path.posix.normalize`. -/
def pathNormalize (p : Str) : Str :=
  if p = [] then ['.']
  else
    if joinSep ((normStack (!(isAbsolutePosix p)) [] (splitSlash p)).reverse) = [] then
      if isAbsolutePosix p then ['/']
      else if p.getLast? = some '/' then ['.', '/'] else ['.']
    else
      (if isAbsolutePosix p then ['/'] else []) ++
      joinSep ((normStack (!(isAbsolutePosix p)) [] (splitSlash p)).reverse) ++
      (if p.getLast? = some '/' then ['/'] else [])

/-- Node `path.posix.resolve(root, rel)` for the planner's use: `rel` wins
when absolute, otherwise the slash-join of the two is normalized. (The
process working directory, which Node would prepend to a relative `root`,
is not modelled; the planner always passes an absolute workspace root.) -/
def pathResolve (root rel : Str) : Str :=
  if isAbsolutePosix rel then pathNormalize rel
  else if rel = [] then pathNormalize root
  else pathNormalize (root ++ '/' :: rel)

/-- `PathValidator.isSafe`: normalize both paths, then test whether the
resolved path starts with the target root as a string prefix. -/
def isSafe (resolvedPath targetRoot : Str) : Bool :=
  startsWithSeq (pathNormalize targetRoot) (pathNormalize resolvedPath)


theorem keepSegment_spec (seg : Str) (h : keepSegment seg = true) :
    seg ≠ [] ∧ seg ≠ ['.'] ∧ seg ≠ ['.', '.'] := by
  simp only [keepSegment, Bool.and_eq_true, Bool.not_eq_true', decide_eq_false_iff_not] at h
  exact ⟨h.1.1, h.1.2, h.2⟩

theorem mem_splitSeps_no_slash (s : Str) (c : Char) :
    ∀ seg ∈ splitSeps s, c ∈ seg → isSlashChar c = false := by
  induction s with
  | nil =>
    intro seg hseg hc
    rw [show splitSeps [] = [[]] from rfl] at hseg
    rcases List.mem_singleton.mp hseg with h1
    rw [h1] at hc
    simp at hc
  | cons d r ih =>
    intro seg hseg hc
    rw [splitSeps] at hseg
    split_ifs at hseg with hd
    · rcases List.mem_cons.mp hseg with h1 | h1
      · rw [h1] at hc
        simp at hc
      · exact ih seg h1 hc
    · rcases hsp : splitSeps r with _ | ⟨s0, rest⟩ <;> rw [hsp] at hseg
      · rcases List.mem_singleton.mp hseg with h1
        rw [h1] at hc
        rcases List.mem_singleton.mp hc with h2
        rw [h2]
        simpa using hd
      · rcases List.mem_cons.mp hseg with h1 | h1
        · rw [h1] at hc
          rcases List.mem_cons.mp hc with h2 | h2
          · rw [h2]
            simpa using hd
          · exact ih s0 (by rw [hsp]; simp) h2
        · exact ih seg (by rw [hsp]; exact List.mem_cons_of_mem s0 h1) hc

theorem splitSeps_no_slash (a : Str) (h : ∀ c ∈ a, isSlashChar c = false) :
    splitSeps a = [a] := by
  induction a with
  | nil => rfl
  | cons c r ih =>
    rw [splitSeps, if_neg (by simp [h c (by simp)]),
      ih (fun d hd => h d (List.mem_cons_of_mem c hd))]

theorem splitSeps_append_slash (a t : Str) (h : ∀ c ∈ a, isSlashChar c = false) :
    splitSeps (a ++ '/' :: t) = a :: splitSeps t := by
  induction a with
  | nil =>
    rw [List.nil_append, splitSeps, if_pos (by decide)]
  | cons c r ih =>
    rw [List.cons_append, splitSeps, if_neg (by simp [h c (by simp)]),
      ih (fun d hd => h d (List.mem_cons_of_mem c hd))]

theorem splitSeps_joinSep (segs : List Str) (hne : segs ≠ [])
    (h : ∀ seg ∈ segs, ∀ c ∈ seg, isSlashChar c = false) :
    splitSeps (joinSep segs) = segs := by
  induction segs with
  | nil => exact absurd rfl hne
  | cons a rest ih =>
    cases rest with
    | nil =>
      rw [show joinSep [a] = a from rfl]
      exact splitSeps_no_slash a (h a (by simp))
    | cons b rest2 =>
      rw [show joinSep (a :: b :: rest2) = a ++ '/' :: joinSep (b :: rest2) from rfl,
        splitSeps_append_slash a _ (h a (by simp)),
        ih (by simp) (fun seg hs c hc => h seg (List.mem_cons_of_mem a hs) c hc)]

theorem head_joinSep_no_slash (segs : List Str) (a : Str) (rest : List Str)
    (hsegs : segs = a :: rest) (hane : a ≠ [])
    (h : ∀ c ∈ a, isSlashChar c = false) (c : Char)
    (hc : (joinSep segs).head? = some c) : isSlashChar c = false := by
  rcases a with _ | ⟨c0, r0⟩
  · exact absurd rfl hane
  · have hhead : (joinSep segs).head? = some c0 := by
      rw [hsegs]
      cases rest with
      | nil => rfl
      | cons b rest2 => rfl
    rw [hhead] at hc
    have : c = c0 := by
      simpa using hc.symm
    rw [this]
    exact h c0 (by simp)

/-- C4: `sanitizePath` is total and always returns a relative path: the
result never begins with a path separator, no segment of the result is `.`
or `..`, and when the result is nonempty no segment is empty. (An empty
result — e.g. for input `".."` — is read as the path with no segments; JS
`split` would report one empty field for it.) -/
theorem sanitizePath_segments_safe (p : Str) :
    (sanitizePath p).head? ≠ some '/' ∧ (sanitizePath p).head? ≠ some '\\' ∧
    (∀ seg ∈ splitSeps (sanitizePath p), seg ≠ ['.'] ∧ seg ≠ ['.', '.']) ∧
    (sanitizePath p ≠ [] → ∀ seg ∈ splitSeps (sanitizePath p), seg ≠ []) := by
  have hsan : sanitizePath p =
      joinSep ((splitSeps ((removeDotDot p).dropWhile isSlashChar)).filter keepSegment) :=
    rfl
  set segs := (splitSeps ((removeDotDot p).dropWhile isSlashChar)).filter keepSegment
    with hsegs
  have hprop : ∀ seg ∈ segs, keepSegment seg = true ∧
      ∀ c ∈ seg, isSlashChar c = false := by
    intro seg hs
    rw [hsegs] at hs
    rcases List.mem_filter.mp hs with ⟨hmem, hkeep⟩
    exact ⟨hkeep, fun c hc => mem_splitSeps_no_slash _ c seg hmem hc⟩
  rcases hsegs2 : segs with _ | ⟨a, rest⟩
  · rw [hsan, hsegs2]
    refine ⟨by simp [joinSep], by simp [joinSep], ?_, ?_⟩
    · intro seg hs
      rw [show splitSeps (joinSep []) = [[]] from rfl] at hs
      rcases List.mem_singleton.mp hs with h1
      rw [h1]
      exact ⟨by decide, by decide⟩
    · intro hcon
      exact absurd rfl hcon
  · have ha := hprop a (by rw [hsegs2]; simp)
    have hane : a ≠ [] := by
      intro hnil
      rw [hnil] at ha
      exact absurd ha.1 (by decide)
    have hround : splitSeps (joinSep segs) = segs :=
      splitSeps_joinSep segs (by rw [hsegs2]; simp)
        (fun seg hs => (hprop seg hs).2)
    have hhead : ∀ c : Char, (joinSep segs).head? = some c → isSlashChar c = false :=
      head_joinSep_no_slash segs a rest hsegs2 hane ha.2
    refine ⟨?_, ?_, ?_, ?_⟩
    · rw [hsan]
      intro hcon
      exact absurd (hhead '/' hcon) (by decide)
    · rw [hsan]
      intro hcon
      exact absurd (hhead '\\' hcon) (by decide)
    · rw [hsan, hround]
      intro seg hs
      exact ⟨(keepSegment_spec seg (hprop seg hs).1).2.1,
        (keepSegment_spec seg (hprop seg hs).1).2.2⟩
    · rw [hsan, hround]
      intro _ seg hs
      exact (keepSegment_spec seg (hprop seg hs).1).1

/-- C5 counterexample: the reserved-name regex uses the digit class `[0-9]`,
so `"COM0"` — which the claim says is accepted — is rejected as a reserved
system folder name. -/
theorem reserved_com0_counterexample :
    validateFolderName "COM0".toList =
      some "This is a reserved system folder name" ∧
    validateFolderName "COM0".toList ≠ none :=
  ⟨by decide, by decide⟩

/-- C5 (amended): among names passing the earlier checks (nonempty after
trimming, no `..`, not absolute, no path separators, no invalid characters),
`validateFolderName` returns the reserved-name error exactly when the
trimmed name matches `^(CON|PRN|AUX|NUL|COM[0-9]|LPT[0-9])(\.|$)` case-
insensitively — the digit class is `[0-9]`, so `COM0`-`COM9` and
`LPT0`-`LPT9` are all reserved — and accepts the name (returns no error)
when it additionally is not reserved, is at most 255 UTF-8 bytes, and
neither starts nor ends with a dot or space. -/
theorem validateFolderName_reserved_amended (name : Str)
    (h0 : ¬(name = [] ∨ jsTrim name = []))
    (h1 : containsSeq ['.', '.'] (jsTrim name) = false)
    (h2 : isAbsolutePosix (jsTrim name) = false)
    (h3 : ((jsTrim name).contains '/' || (jsTrim name).contains '\\') = false)
    (h4 : (jsTrim name).any isInvalidFsChar = false) :
    (validateFolderName name = some "This is a reserved system folder name" ↔
       reservedNameTest (jsTrim name) = true) ∧
    (reservedNameTest (jsTrim name) = false →
       utf8ByteLen (jsTrim name) ≤ 255 →
       edgeDotSpace (jsTrim name) = false →
       validateFolderName name = none) := by
  unfold validateFolderName
  rw [if_neg h0, if_neg (by rw [h1]; simp), if_neg (by rw [h2]; simp),
    if_neg (by rw [h3]; simp), if_neg (by rw [h4]; simp)]
  constructor
  · by_cases hres : reservedNameTest (jsTrim name) = true
    · rw [if_pos hres]
      simp [hres]
    · rw [if_neg hres]
      constructor
      · intro hcontra
        split_ifs at hcontra with hl he
        · exact absurd (Option.some.inj hcontra) (by decide)
        · exact absurd (Option.some.inj hcontra) (by decide)
      · intro hcon
        exact absurd hcon hres
  · intro hres hlen hedge
    rw [if_neg (by rw [hres]; simp), if_neg (by omega), if_neg (by rw [hedge]; simp)]

/-- Witness for the amended C5 at the accepted name `"Widget"`. -/
theorem validateFolderName_reserved_amended_witness :
    ¬("Widget".toList = [] ∨ jsTrim "Widget".toList = []) ∧
    containsSeq ['.', '.'] (jsTrim "Widget".toList) = false ∧
    isAbsolutePosix (jsTrim "Widget".toList) = false ∧
    (("Widget".toList.contains '/' || "Widget".toList.contains '\\') = false) ∧
    ("Widget".toList.any isInvalidFsChar = false) ∧
    ((validateFolderName "Widget".toList =
        some "This is a reserved system folder name" ↔
      reservedNameTest (jsTrim "Widget".toList) = true) ∧
     (reservedNameTest (jsTrim "Widget".toList) = false →
      utf8ByteLen (jsTrim "Widget".toList) ≤ 255 →
      edgeDotSpace (jsTrim "Widget".toList) = false →
      validateFolderName "Widget".toList = none)) :=
  ⟨by decide, by decide, by decide, by decide, by decide,
   validateFolderName_reserved_amended "Widget".toList (by decide) (by decide)
     (by decide) (by decide) (by decide)⟩

/-- C10: `isSafe` is exactly the normalized string-prefix test, and in
particular accepts a sibling path whose directory name merely extends the
target root's last segment (`/workspace/App-evil/x` under root
`/workspace/App`), even though that path is not inside the root. -/
theorem isSafe_prefix_characterization :
    (∀ resolvedPath targetRoot : Str,
        isSafe resolvedPath targetRoot =
          startsWithSeq (pathNormalize targetRoot) (pathNormalize resolvedPath)) ∧
    isSafe "/workspace/App-evil/x".toList "/workspace/App".toList = true :=
  ⟨fun _ _ => rfl, by decide⟩

/-! ### Template Operation Planner (`src/services/templateProcessor.ts`) -/

/-- A template file: a path template and optional content template. -/
structure TemplateFile where
  path : Str
  content : Option Str
deriving DecidableEq

/-- A template definition (only the fields the planner reads). -/
structure TemplateDef where
  name : Str
  files : List TemplateFile
deriving DecidableEq

/-- `TemplateContext`. -/
structure TemplateContext where
  targetRoot : Str
  folderName : Str
  template : TemplateDef
deriving DecidableEq

/-- `FileOperation`. -/
structure FileOperation where
  absolutePath : Str
  relativePath : Str
  content : Str
  templateFile : TemplateFile
deriving DecidableEq

/-- `ResourceLimits`. -/
structure ResourceLimits where
  maxFilesPerTemplate : Nat
  maxFileSizeBytes : Nat
  maxTotalSizeBytes : Nat
deriving DecidableEq

/-- `TemplateProcessor.DEFAULT_LIMITS`: 100 files, 10 MB per file,
100 MB total. -/
def DEFAULT_LIMITS : ResourceLimits :=
  ⟨100, 10 * 1024 * 1024, 100 * 1024 * 1024⟩

/-- The `context` objects of the `TemplateValidationError`s thrown by
`validateTemplate`, one constructor per throw site. -/
inductive ValidationIssue where
  | tooManyFiles (fileCount limit : Nat)
  | fileTooLarge (file : Str) (size limit : Nat)
  | totalTooLarge (totalSize limit : Nat)
deriving DecidableEq

/-- The errors `planFileOperations` can throw: a
`TemplateValidationError` or a `PathSecurityError` with its context
`{relativePath, absolutePath, targetRoot}`. -/
inductive PlanError where
  | validation (issue : ValidationIssue)
  | pathSecurity (relativePath absolutePath targetRoot : Str)
deriving DecidableEq

/-- The per-file loop of `validateTemplate`: throw on an oversized file,
otherwise accumulate the total size. -/
def scanFileSizes (limits : ResourceLimits) (total : Nat) :
    List TemplateFile → Except ValidationIssue Nat
  | [] => .ok total
  | f :: fs =>
    if utf8ByteLen (f.content.getD []) > limits.maxFileSizeBytes then
      .error (.fileTooLarge f.path (utf8ByteLen (f.content.getD []))
        limits.maxFileSizeBytes)
    else scanFileSizes limits (total + utf8ByteLen (f.content.getD [])) fs

/-- `TemplateProcessor.validateTemplate`: file count first, then per-file
sizes, then the total. -/
def validateTemplate (limits : ResourceLimits) (template : TemplateDef) :
    Option ValidationIssue :=
  if template.files.length > limits.maxFilesPerTemplate then
    some (.tooManyFiles template.files.length limits.maxFilesPerTemplate)
  else
    match scanFileSizes limits 0 template.files with
    | .error issue => some issue
    | .ok total =>
      if total > limits.maxTotalSizeBytes then
        some (.totalTooLarge total limits.maxTotalSizeBytes)
      else none

/-- The planner's variable map: `{ folderName }`. -/
def plannerVars (folderName : Str) : Str → Option Str :=
  fun n => if n = "folderName".toList then some folderName else none

/-- The per-file loop of `planFileOperations`: substitute, sanitize,
resolve, check containment, emit the operation. -/
def planFiles (folderName targetRoot : Str) :
    List TemplateFile → Except PlanError (List FileOperation)
  | [] => .ok []
  | tf :: rest =>
    if isSafe (pathResolve targetRoot
        (sanitizePath (apply tf.path (plannerVars folderName)))) targetRoot then
      match planFiles folderName targetRoot rest with
      | .error e => .error e
      | .ok ops =>
        .ok (⟨pathResolve targetRoot
            (sanitizePath (apply tf.path (plannerVars folderName))),
          sanitizePath (apply tf.path (plannerVars folderName)),
          apply (tf.content.getD []) (plannerVars folderName), tf⟩ :: ops)
    else
      .error (.pathSecurity (apply tf.path (plannerVars folderName))
        (pathResolve targetRoot
          (sanitizePath (apply tf.path (plannerVars folderName))))
        targetRoot)

/-- `TemplateProcessor.planFileOperations`. -/
def planFileOperations (limits : ResourceLimits) (context : TemplateContext) :
    Except PlanError (List FileOperation) :=
  match validateTemplate limits context.template with
  | some issue => .error (.validation issue)
  | none => planFiles context.folderName context.targetRoot context.template.files

theorem planFiles_ok_safe (folderName targetRoot : Str)
    (files : List TemplateFile) (ops : List FileOperation)
    (h : planFiles folderName targetRoot files = .ok ops) :
    ∀ op ∈ ops, isSafe op.absolutePath targetRoot = true := by
  induction files generalizing ops with
  | nil =>
    rw [planFiles] at h
    simp only [Except.ok.injEq] at h
    intro op hop
    rw [← h] at hop
    simp at hop
  | cons tf rest ih =>
    rw [planFiles] at h
    split_ifs at h with hsafe
    · rcases hrec : planFiles folderName targetRoot rest with e | ops2 <;>
        rw [hrec] at h
      · simp at h
      · simp only [Except.ok.injEq] at h
        rw [← h]
        intro op hop
        rcases List.mem_cons.mp hop with h1 | h1
        · rw [h1]
          exact hsafe
        · exact ih ops2 hrec op h1

theorem planFiles_err_accurate (folderName targetRoot : Str)
    (files : List TemplateFile) (rp ap tr : Str)
    (h : planFiles folderName targetRoot files = .error (.pathSecurity rp ap tr)) :
    tr = targetRoot ∧ ap = pathResolve targetRoot (sanitizePath rp) ∧
    isSafe ap targetRoot = false ∧
    ∃ tf ∈ files, rp = apply tf.path (plannerVars folderName) := by
  induction files with
  | nil =>
    rw [planFiles] at h
    simp at h
  | cons tf rest ih =>
    rw [planFiles] at h
    split_ifs at h with hsafe
    · rcases hrec : planFiles folderName targetRoot rest with e | ops2 <;>
        rw [hrec] at h
      · simp only [Except.error.injEq] at h
        rw [h] at hrec
        rcases ih hrec with ⟨h1, h2, h3, tf2, htf2, h4⟩
        exact ⟨h1, h2, h3, tf2, List.mem_cons_of_mem tf htf2, h4⟩
      · simp at h
    · simp only [Except.error.injEq, PlanError.pathSecurity.injEq] at h
      obtain ⟨h1, h2, h3⟩ := h
      subst h1
      subst h2
      subst h3
      exact ⟨rfl, rfl, by simpa using hsafe, tf, List.mem_cons_self tf rest, rfl⟩

theorem planFiles_unsafe_no_ok (folderName targetRoot : Str)
    (files : List TemplateFile)
    (h : ∃ tf ∈ files,
      isSafe (pathResolve targetRoot
        (sanitizePath (apply tf.path (plannerVars folderName)))) targetRoot = false) :
    ∀ ops, planFiles folderName targetRoot files ≠ .ok ops := by
  induction files with
  | nil =>
    rcases h with ⟨tf, htf, _⟩
    simp at htf
  | cons tf0 rest ih =>
    intro ops hok
    rw [planFiles] at hok
    split_ifs at hok with hsafe
    · rcases hrec : planFiles folderName targetRoot rest with e | ops2 <;>
        rw [hrec] at hok
      · simp at hok
      · rcases h with ⟨tf, htf, hnotsafe⟩
        rcases List.mem_cons.mp htf with h1 | h1
        · rw [h1] at hnotsafe
          rw [hnotsafe] at hsafe
          simp at hsafe
        · exact ih ⟨tf, h1, hnotsafe⟩ ops2 hrec

/-- C3: every operation returned by `planFileOperations` satisfies the
`isSafe` containment check against the context's target root; a
`PathSecurityError` result carries exactly the original substituted
relative path, the resolved absolute path and the target root of a file
that failed containment after sanitization; and whenever containment fails
for some file, no operation list is returned. -/
theorem planFileOperations_safe (limits : ResourceLimits)
    (context : TemplateContext) :
    (∀ ops, planFileOperations limits context = .ok ops →
      ∀ op ∈ ops, isSafe op.absolutePath context.targetRoot = true) ∧
    (∀ rp ap tr,
      planFileOperations limits context = .error (.pathSecurity rp ap tr) →
      tr = context.targetRoot ∧
      ap = pathResolve context.targetRoot (sanitizePath rp) ∧
      isSafe ap context.targetRoot = false ∧
      ∃ tf ∈ context.template.files,
        rp = apply tf.path (plannerVars context.folderName)) ∧
    ((∃ tf ∈ context.template.files,
        isSafe (pathResolve context.targetRoot
          (sanitizePath (apply tf.path (plannerVars context.folderName))))
          context.targetRoot = false) →
      ∀ ops, planFileOperations limits context ≠ .ok ops) := by
  refine ⟨?_, ?_, ?_⟩
  · intro ops hok
    rw [planFileOperations] at hok
    rcases hval : validateTemplate limits context.template with _ | issue <;>
      rw [hval] at hok
    · exact planFiles_ok_safe _ _ _ ops hok
    · simp at hok
  · intro rp ap tr herr
    rw [planFileOperations] at herr
    rcases hval : validateTemplate limits context.template with _ | issue <;>
      rw [hval] at herr
    · exact planFiles_err_accurate _ _ _ rp ap tr herr
    · simp at herr
  · intro hexists ops hok
    rw [planFileOperations] at hok
    rcases hval : validateTemplate limits context.template with _ | issue <;>
      rw [hval] at hok
    · exact planFiles_unsafe_no_ok _ _ _ hexists ops hok
    · simp at hok

theorem planFileOperations_eval (limits : ResourceLimits)
    (context : TemplateContext)
    (hval : validateTemplate limits context.template = none) :
    planFileOperations limits context =
      planFiles context.folderName context.targetRoot context.template.files := by
  rw [planFileOperations, hval]

theorem planFiles_cons_eval (fn root : Str) (tf : TemplateFile)
    (rest : List TemplateFile) (rel cont : Str) (ops : List FileOperation)
    (hrel : apply tf.path (plannerVars fn) = rel)
    (hsafe : isSafe (pathResolve root (sanitizePath rel)) root = true)
    (hcont : apply (tf.content.getD []) (plannerVars fn) = cont)
    (hrest : planFiles fn root rest = .ok ops) :
    planFiles fn root (tf :: rest) =
      .ok (⟨pathResolve root (sanitizePath rel), sanitizePath rel, cont, tf⟩ :: ops) := by
  rw [planFiles, hrel, if_pos hsafe, hrest, hcont]

/-- Context for the C3 witness: one plain file `index.ts` under
`/ws/App`. -/
def planWitnessCtx : TemplateContext :=
  ⟨"/ws/App".toList, "My".toList,
    ⟨"t".toList, [⟨"index.ts".toList, none⟩]⟩⟩

/-- The single operation the C3 witness context plans. -/
def planWitnessOp : FileOperation :=
  ⟨"/ws/App/index.ts".toList, "index.ts".toList, [],
    ⟨"index.ts".toList, none⟩⟩

/-- Witness for C3: the concrete plan succeeds and its operation passes
`isSafe`. -/
theorem planFileOperations_safe_witness :
    planFileOperations DEFAULT_LIMITS planWitnessCtx = .ok [planWitnessOp] ∧
    isSafe planWitnessOp.absolutePath planWitnessCtx.targetRoot = true := by
  have hpath : apply "index.ts".toList (plannerVars "My".toList) =
      "index.ts".toList := by
    rw [apply, applyGo_no_dollar _ _ (by decide)]
  have hcontent : apply ([] : Str) (plannerVars "My".toList) = [] := by
    rw [apply, applyGo.eq_3]
  have hplan : planFileOperations DEFAULT_LIMITS planWitnessCtx =
      .ok [planWitnessOp] := by
    rw [planFileOperations_eval DEFAULT_LIMITS planWitnessCtx (by decide)]
    show planFiles "My".toList "/ws/App".toList [⟨"index.ts".toList, none⟩] =
      .ok [planWitnessOp]
    rw [planFiles_cons_eval "My".toList "/ws/App".toList ⟨"index.ts".toList, none⟩
      [] "index.ts".toList [] [] hpath (by decide) hcontent (by rw [planFiles])]
    exact congrArg Except.ok (by decide)
  exact ⟨hplan,
    (planFileOperations_safe DEFAULT_LIMITS planWitnessCtx).1 [planWitnessOp]
      hplan planWitnessOp (List.mem_cons_self _ _)⟩

/-- Sum of the UTF-8 content sizes of a template's files. -/
def sumContentBytes (files : List TemplateFile) : Nat :=
  (files.map (fun f => utf8ByteLen (f.content.getD []))).sum

/-- What each `TemplateValidationError` context must record: the observed
value and the configured limit of the violated check. -/
def issueAccurate (limits : ResourceLimits) (template : TemplateDef) :
    ValidationIssue → Prop
  | .tooManyFiles n l =>
    n = template.files.length ∧ l = limits.maxFilesPerTemplate ∧ n > l
  | .fileTooLarge f s l =>
    (∃ tf ∈ template.files, tf.path = f ∧ s = utf8ByteLen (tf.content.getD [])) ∧
    l = limits.maxFileSizeBytes ∧ s > l
  | .totalTooLarge t l =>
    t = sumContentBytes template.files ∧ l = limits.maxTotalSizeBytes ∧ t > l

theorem scanFileSizes_ok (limits : ResourceLimits) (files : List TemplateFile)
    (t total : Nat) (h : scanFileSizes limits t files = .ok total) :
    total = t + sumContentBytes files ∧
    ∀ tf ∈ files, utf8ByteLen (tf.content.getD []) ≤ limits.maxFileSizeBytes := by
  induction files generalizing t with
  | nil =>
    rw [scanFileSizes] at h
    simp only [Except.ok.injEq] at h
    refine ⟨by rw [← h]; simp [sumContentBytes], ?_⟩
    intro tf htf
    simp at htf
  | cons f fs ih =>
    rw [scanFileSizes] at h
    split_ifs at h with hbig
    rcases ih _ h with ⟨h1, h2⟩
    refine ⟨by rw [h1]; simp [sumContentBytes]; omega, ?_⟩
    intro tf htf
    rcases List.mem_cons.mp htf with h3 | h3
    · rw [h3]
      omega
    · exact h2 tf h3

theorem scanFileSizes_err (limits : ResourceLimits) (files : List TemplateFile)
    (t : Nat) (issue : ValidationIssue)
    (h : scanFileSizes limits t files = .error issue) :
    ∃ tf ∈ files, issue = .fileTooLarge tf.path (utf8ByteLen (tf.content.getD []))
        limits.maxFileSizeBytes ∧
      utf8ByteLen (tf.content.getD []) > limits.maxFileSizeBytes := by
  induction files generalizing t with
  | nil =>
    rw [scanFileSizes] at h
    simp at h
  | cons f fs ih =>
    rw [scanFileSizes] at h
    split_ifs at h with hbig
    · simp only [Except.error.injEq] at h
      exact ⟨f, List.mem_cons_self f fs, h.symm, hbig⟩
    · rcases ih _ h with ⟨tf, htf, h1, h2⟩
      exact ⟨tf, List.mem_cons_of_mem f htf, h1, h2⟩

theorem planFiles_no_validation (folderName targetRoot : Str)
    (files : List TemplateFile) (issue : ValidationIssue) :
    planFiles folderName targetRoot files ≠ .error (.validation issue) := by
  induction files with
  | nil =>
    rw [planFiles]
    simp
  | cons tf rest ih =>
    rw [planFiles]
    split_ifs with hsafe
    · rcases hrec : planFiles folderName targetRoot rest with e | ops2
      · intro hc
        have hc2 : (Except.error e : Except PlanError (List FileOperation)) =
            .error (.validation issue) := hc
        simp only [Except.error.injEq] at hc2
        rw [hc2] at hrec
        exact ih hrec
      · intro hc
        exact Except.noConfusion hc
    · simp

/-- C6: a template that violates a resource limit — too many files, one
file's UTF-8 content size above `maxFileSizeBytes`, or the total content
size above `maxTotalSizeBytes` — makes `planFileOperations` return a
`TemplateValidationError` (so no operation list, partial or otherwise, is
produced), and every such error records the actual observed value together
with the configured limit it exceeded. -/
theorem plan_resource_limits (limits : ResourceLimits)
    (context : TemplateContext) :
    ((context.template.files.length > limits.maxFilesPerTemplate ∨
      (∃ tf ∈ context.template.files,
        utf8ByteLen (tf.content.getD []) > limits.maxFileSizeBytes) ∨
      sumContentBytes context.template.files > limits.maxTotalSizeBytes) →
      ∃ issue, planFileOperations limits context = .error (.validation issue)) ∧
    (∀ issue, planFileOperations limits context = .error (.validation issue) →
      issueAccurate limits context.template issue) := by
  have hlift : ∀ issue,
      planFileOperations limits context = .error (.validation issue) ↔
      validateTemplate limits context.template = some issue := by
    intro issue
    rw [planFileOperations]
    rcases hval : validateTemplate limits context.template with _ | issue2
    · constructor
      · intro h
        exact absurd h (planFiles_no_validation _ _ _ issue)
      · intro h
        exact Option.noConfusion h
    · constructor
      · intro h
        have h2 : (Except.error (.validation issue2) :
            Except PlanError (List FileOperation)) = .error (.validation issue) := h
        simp only [Except.error.injEq, PlanError.validation.injEq] at h2
        rw [h2]
      · intro h
        simp only [Option.some.injEq] at h
        rw [h]
     
  constructor
  · intro hviol
    by_cases hcount : context.template.files.length > limits.maxFilesPerTemplate
    · refine ⟨.tooManyFiles context.template.files.length
        limits.maxFilesPerTemplate, ?_⟩
      rw [hlift]
      unfold validateTemplate
      rw [if_pos hcount]
    · rcases hscan : scanFileSizes limits 0 context.template.files with issue | total
      · refine ⟨issue, ?_⟩
        rw [hlift]
        unfold validateTemplate
        rw [if_neg hcount, hscan]
      · rcases scanFileSizes_ok limits _ 0 total hscan with ⟨htot, hall⟩
        have hover : sumContentBytes context.template.files >
            limits.maxTotalSizeBytes := by
          rcases hviol with h | h | h
          · exact absurd h hcount
          · rcases h with ⟨tf, htf, hbig⟩
            exact absurd (hall tf htf) (by omega)
          · exact h
        refine ⟨.totalTooLarge total limits.maxTotalSizeBytes, ?_⟩
        rw [hlift]
        unfold validateTemplate
        rw [if_neg hcount, hscan]
        show (if total > limits.maxTotalSizeBytes then
            some (ValidationIssue.totalTooLarge total limits.maxTotalSizeBytes)
          else none) =
          some (ValidationIssue.totalTooLarge total limits.maxTotalSizeBytes)
        rw [if_pos (by omega)]
  · intro issue herr
    rw [hlift] at herr
    unfold validateTemplate at herr
    split_ifs at herr with hcount
    · simp only [Option.some.injEq] at herr
      rw [← herr]
      exact ⟨rfl, rfl, hcount⟩
    · rcases hscan : scanFileSizes limits 0 context.template.files with issue2 | total <;>
        rw [hscan] at herr
      · have herr2 : some issue2 = some issue := herr
        simp only [Option.some.injEq] at herr2
        rw [← herr2]
        rcases scanFileSizes_err limits _ 0 issue2 hscan with ⟨tf, htf, h1, h2⟩
        rw [h1]
        exact ⟨⟨tf, htf, rfl, rfl⟩, rfl, h2⟩
      · have herr2 : (if total > limits.maxTotalSizeBytes then
            some (ValidationIssue.totalTooLarge total limits.maxTotalSizeBytes)
          else none) = some issue := herr
        split_ifs at herr2 with htot
        simp only [Option.some.injEq] at herr2
        rw [← herr2]
        rcases scanFileSizes_ok limits _ 0 total hscan with ⟨h1, _⟩
        exact ⟨by omega, rfl, htot⟩

/-- Template with 101 empty files for the C6 witness. -/
def manyFilesCtx : TemplateContext :=
  ⟨"/ws/App".toList, "My".toList,
    ⟨"t".toList, List.replicate 101 ⟨['a'], none⟩⟩⟩

/-- Witness for C6: 101 files exceed the default 100-file limit and
planning fails with a validation error. -/
theorem plan_resource_limits_witness :
    (manyFilesCtx.template.files.length > DEFAULT_LIMITS.maxFilesPerTemplate ∨
      (∃ tf ∈ manyFilesCtx.template.files,
        utf8ByteLen (tf.content.getD []) > DEFAULT_LIMITS.maxFileSizeBytes) ∨
      sumContentBytes manyFilesCtx.template.files > DEFAULT_LIMITS.maxTotalSizeBytes) ∧
    ∃ issue, planFileOperations DEFAULT_LIMITS manyFilesCtx =
      .error (.validation issue) :=
  ⟨Or.inl (by decide),
   (plan_resource_limits DEFAULT_LIMITS manyFilesCtx).1 (Or.inl (by decide))⟩

/-! ### Execution Orchestrator (`src/commands/createFromTemplate.ts`)

`executeOperations` is modelled as a step function over the planned
operations: the file system is an oracle `Str → FileStat`, the UI an oracle
answering the n-th conflict prompt, and the progress token an oracle for
the per-iteration cancellation check. Each processed operation contributes
a `StepLog` entry recording what the orchestrator observably did. -/

/-- `FileStat` (the `exists` field is named `existsOnDisk`; `exists` is a
Lean keyword). -/
structure FileStat where
  size : Nat
  existsOnDisk : Bool

/-- The `action` of a `ConflictResolution`. -/
inductive ConflictAction where
  | overwrite
  | skip
  | cancel
deriving DecidableEq

/-- `ConflictResolution`. -/
structure ConflictResolution where
  action : ConflictAction
  applyToAll : Bool
deriving DecidableEq

/-- The session conflict policy (`"ask" | "overwrite" | "skip"`). -/
inductive ConflictPolicy where
  | ask
  | overwrite
  | skip
deriving DecidableEq

/-- `CreateFromTemplateCommand.resolveConflict`: apply an established
policy directly (with `applyToAll` false), prompting the UI only under
`ask`. -/
def resolveConflict (prompt : ConflictResolution) :
    ConflictPolicy → ConflictResolution
  | .overwrite => ⟨.overwrite, false⟩
  | .skip => ⟨.skip, false⟩
  | .ask => prompt

/-- The orchestrator's collaborators. -/
structure ExecEnv where
  fs : Str → FileStat
  ui : Nat → ConflictResolution
  cancelRequested : Nat → Bool

/-- What one loop iteration observably did. -/
structure StepLog where
  existed : Bool
  prompted : Bool
  skipped : Bool
  wrote : Bool
  policyAfter : ConflictPolicy
deriving DecidableEq

/-- Result of a run: the per-operation log, the created paths in order, and
whether the run ended in cancellation. -/
structure ExecResult where
  log : List StepLog
  created : List Str
  cancelled : Bool
deriving DecidableEq

/-- Prepend a log entry. -/
def consLog (e : StepLog) (r : ExecResult) : ExecResult :=
  ⟨e :: r.log, r.created, r.cancelled⟩

/-- Prepend a log entry and a created path. -/
def consWrite (e : StepLog) (p : Str) (r : ExecResult) : ExecResult :=
  ⟨e :: r.log, p :: r.created, r.cancelled⟩

/-- The loop of `executeOperations`: `i` is the iteration index (for the
per-iteration cancellation check), `pc` the number of UI prompts issued so
far (the UI oracle is consulted only when the file exists and the policy is
still `ask`). -/
def execGo (env : ExecEnv) : List FileOperation → Nat → Nat → ConflictPolicy →
    ExecResult
  | [], _, _, _ => ⟨[], [], false⟩
  | op :: rest, i, pc, policy =>
    if env.cancelRequested i then ⟨[], [], true⟩
    else if (env.fs op.absolutePath).existsOnDisk then
      if (resolveConflict (env.ui pc) policy).action = .cancel then
        ⟨[], [], true⟩
      else if (resolveConflict (env.ui pc) policy).action = .skip then
        consLog
          ⟨true, decide (policy = .ask), true, false,
            if (resolveConflict (env.ui pc) policy).applyToAll then
              ConflictPolicy.skip else policy⟩
          (execGo env rest (i + 1) (if policy = .ask then pc + 1 else pc)
            (if (resolveConflict (env.ui pc) policy).applyToAll then
              ConflictPolicy.skip else policy))
      else
        consWrite
          ⟨true, decide (policy = .ask), false, true,
            if (resolveConflict (env.ui pc) policy).applyToAll then
              ConflictPolicy.overwrite else policy⟩
          op.absolutePath
          (execGo env rest (i + 1) (if policy = .ask then pc + 1 else pc)
            (if (resolveConflict (env.ui pc) policy).applyToAll then
              ConflictPolicy.overwrite else policy))
    else
      consWrite ⟨false, false, false, true, policy⟩ op.absolutePath
        (execGo env rest (i + 1) pc policy)

/-- `CreateFromTemplateCommand.executeOperations`: the loop starts with the
`ask` policy and no prompts issued. -/
def executeOperations (env : ExecEnv) (ops : List FileOperation) : ExecResult :=
  execGo env ops 0 0 .ask

/-- Once the policy is no longer `ask`, `resolveConflict` never consults
the UI, so every later log entry keeps that exact policy, records no
prompt, and behaves according to the policy on existing targets. -/
theorem execGo_fixed_policy (env : ExecEnv) (ops : List FileOperation)
    (i pc : Nat) (p : ConflictPolicy) (hp : p ≠ .ask) :
    ∀ e ∈ (execGo env ops i pc p).log,
      e.policyAfter = p ∧ e.prompted = false ∧
      (p = .skip → e.existed = true → e.skipped = true ∧ e.wrote = false) ∧
      (p = .overwrite → e.existed = true → e.wrote = true ∧ e.skipped = false) := by
  induction ops generalizing i pc with
  | nil =>
    intro e he
    rw [execGo] at he
    simp at he
  | cons op rest ih =>
    intro e he
    rw [execGo] at he
    cases p with
    | ask => exact absurd rfl hp
    | skip =>
      have he2 : e ∈ (if env.cancelRequested i then (⟨[], [], true⟩ : ExecResult)
          else if (env.fs op.absolutePath).existsOnDisk then
            consLog ⟨true, false, true, false, ConflictPolicy.skip⟩
              (execGo env rest (i + 1) pc ConflictPolicy.skip)
          else
            consWrite ⟨false, false, false, true, ConflictPolicy.skip⟩
              op.absolutePath
              (execGo env rest (i + 1) pc ConflictPolicy.skip)).log := he
      split_ifs at he2 with hcan hex
      · simp at he2
      · simp only [consLog, List.mem_cons] at he2
        rcases he2 with h1 | h1
        · subst h1
          exact ⟨rfl, rfl, fun _ _ => ⟨rfl, rfl⟩, fun hco => absurd hco (by decide)⟩
        · exact ih (i + 1) pc e h1
      · simp only [consWrite, List.mem_cons] at he2
        rcases he2 with h1 | h1
        · subst h1
          exact ⟨rfl, rfl, fun _ hex2 => absurd hex2 (by decide),
            fun hco => absurd hco (by decide)⟩
        · exact ih (i + 1) pc e h1
    | overwrite =>
      have he2 : e ∈ (if env.cancelRequested i then (⟨[], [], true⟩ : ExecResult)
          else if (env.fs op.absolutePath).existsOnDisk then
            consWrite ⟨true, false, false, true, ConflictPolicy.overwrite⟩
              op.absolutePath
              (execGo env rest (i + 1) pc ConflictPolicy.overwrite)
          else
            consWrite ⟨false, false, false, true, ConflictPolicy.overwrite⟩
              op.absolutePath
              (execGo env rest (i + 1) pc ConflictPolicy.overwrite)).log := he
      split_ifs at he2 with hcan hex
      · simp at he2
      · simp only [consWrite, List.mem_cons] at he2
        rcases he2 with h1 | h1
        · subst h1
          exact ⟨rfl, rfl, fun hsk => absurd hsk (by decide), fun _ _ => ⟨rfl, rfl⟩⟩
        · exact ih (i + 1) pc e h1
      · simp only [consWrite, List.mem_cons] at he2
        rcases he2 with h1 | h1
        · subst h1
          exact ⟨rfl, rfl, fun hsk => absurd hsk (by decide),
            fun _ hex2 => absurd hex2 (by decide)⟩
        · exact ih (i + 1) pc e h1

/-- One loop iteration either ends the run (cancellation) or contributes a
head entry whose recorded policy is exactly the policy the remaining
iterations run under. -/
theorem execGo_cons_shape (env : ExecEnv) (op : FileOperation)
    (rest : List FileOperation) (i pc : Nat) (p : ConflictPolicy) :
    (execGo env (op :: rest) i pc p).log = [] ∨
    ∃ e i2 pc2, (execGo env (op :: rest) i pc p).log =
      e :: (execGo env rest i2 pc2 e.policyAfter).log := by
  rw [execGo]
  by_cases hcan : env.cancelRequested i = true
  · rw [if_pos hcan]
    exact Or.inl rfl
  · rw [if_neg hcan]
    by_cases hex : (env.fs op.absolutePath).existsOnDisk = true
    · rw [if_pos hex]
      rcases hact : (resolveConflict (env.ui pc) p).action with _ | _ | _
      · rw [if_neg (by decide), if_neg (by decide)]
        exact Or.inr ⟨⟨true, decide (p = .ask), false, true,
          if (resolveConflict (env.ui pc) p).applyToAll then
            ConflictPolicy.overwrite else p⟩,
          i + 1, if p = .ask then pc + 1 else pc, rfl⟩
      · rw [if_neg (by decide), if_pos rfl]
        exact Or.inr ⟨⟨true, decide (p = .ask), true, false,
          if (resolveConflict (env.ui pc) p).applyToAll then
            ConflictPolicy.skip else p⟩,
          i + 1, if p = .ask then pc + 1 else pc, rfl⟩
      · rw [if_pos rfl]
        exact Or.inl rfl
    · rw [if_neg hex]
      exact Or.inr ⟨⟨false, false, false, true, p⟩, i + 1, pc, rfl⟩

/-- The tail of the log after any entry is itself the log of a run that
starts at that entry's recorded policy. -/
theorem execGo_log_suffix (env : ExecEnv) (ops : List FileOperation)
    (i pc : Nat) (p : ConflictPolicy) (j : Nat) (e : StepLog)
    (hj : (execGo env ops i pc p).log[j]? = some e) :
    ∃ ops2 i2 pc2,
      (execGo env ops i pc p).log.drop (j + 1) =
        (execGo env ops2 i2 pc2 e.policyAfter).log := by
  induction ops generalizing i pc p j with
  | nil =>
    rw [execGo] at hj
    simp at hj
  | cons op rest ih =>
    rcases execGo_cons_shape env op rest i pc p with hsh | ⟨e0, i2, pc2, hsh⟩
    · rw [hsh] at hj
      simp at hj
    · rw [hsh] at hj ⊢
      cases j with
      | zero =>
        rw [List.getElem?_cons_zero, Option.some.injEq] at hj
        subst hj
        exact ⟨rest, i2, pc2, by simp⟩
      | succ j2 =>
        rw [List.getElem?_cons_succ] at hj
        obtain ⟨ops2, i3, pc3, hdrop⟩ := ih i2 pc2 e0.policyAfter j2 hj
        exact ⟨ops2, i3, pc3, by simpa using hdrop⟩

/-- C7: within one `executeOperations` run the conflict policy starts at
`ask` and changes at most once, to an all-policy, never back: if the log
entry at position `j` records a non-`ask` policy `p`, then every later
entry still records exactly `p` and was produced without any UI prompt;
moreover under `p = skip` every later existing target is skipped and not
written, and under `p = overwrite` every later existing target is written
and not skipped. -/
theorem conflict_policy_monotone (env : ExecEnv) (ops : List FileOperation)
    (j k : Nat) (ej ek : StepLog) (p : ConflictPolicy)
    (hj : (executeOperations env ops).log[j]? = some ej)
    (hpj : ej.policyAfter = p) (hp : p ≠ .ask)
    (hk : (executeOperations env ops).log[k]? = some ek) (hjk : j < k) :
    ek.policyAfter = p ∧ ek.prompted = false ∧
    (p = .skip → ek.existed = true → ek.skipped = true ∧ ek.wrote = false) ∧
    (p = .overwrite → ek.existed = true → ek.wrote = true ∧ ek.skipped = false) := by
  obtain ⟨ops2, i2, pc2, hdrop⟩ :=
    execGo_log_suffix env ops 0 0 .ask j ej hj
  have hidx : ((execGo env ops 0 0 ConflictPolicy.ask).log.drop
      (j + 1))[k - (j + 1)]? = some ek := by
    rw [List.getElem?_drop]
    have hkk : j + 1 + (k - (j + 1)) = k := by omega
    rw [hkk]
    exact hk
  rw [hdrop] at hidx
  have hmem : ek ∈ (execGo env ops2 i2 pc2 ej.policyAfter).log :=
    List.getElem?_mem hidx
  rw [hpj] at hmem
  exact execGo_fixed_policy env ops2 i2 pc2 p hp ek hmem

/-- Concrete environment for the C7 witness: every target exists, the UI
answers every prompt with skip-all, and cancellation is never requested. -/
def witExecEnv : ExecEnv :=
  ⟨fun _ => ⟨0, true⟩, fun _ => ⟨.skip, true⟩, fun _ => false⟩

/-- Two concrete planned operations for the C7 witness. -/
def witExecOps : List FileOperation :=
  [⟨['/', 'r', '/', 'a'], ['a'], [], ⟨['a'], none⟩⟩,
   ⟨['/', 'r', '/', 'b'], ['b'], [], ⟨['b'], none⟩⟩]

theorem conflict_policy_monotone_witness :
    (⟨true, false, true, false, .skip⟩ : StepLog).policyAfter = .skip ∧
    (⟨true, false, true, false, .skip⟩ : StepLog).prompted = false ∧
    (ConflictPolicy.skip = .skip →
      (⟨true, false, true, false, .skip⟩ : StepLog).existed = true →
      (⟨true, false, true, false, .skip⟩ : StepLog).skipped = true ∧
      (⟨true, false, true, false, .skip⟩ : StepLog).wrote = false) ∧
    (ConflictPolicy.skip = .overwrite →
      (⟨true, false, true, false, .skip⟩ : StepLog).existed = true →
      (⟨true, false, true, false, .skip⟩ : StepLog).wrote = true ∧
      (⟨true, false, true, false, .skip⟩ : StepLog).skipped = false) :=
  conflict_policy_monotone witExecEnv witExecOps 0 1
    ⟨true, true, true, false, .skip⟩ ⟨true, false, true, false, .skip⟩
    .skip (by decide) rfl (by decide) (by decide) (by decide)

end FolderMaker
